import Mathlib

/-!
Shallow embedding of the chunking and local-embedding core of
internal/rag (lister.go chunking section and local_embedding.go).

Modelling conventions:
* Go strings are modelled as `List Char`; the code under scrutiny indexes
  bytes, which coincides with characters on the ASCII inputs involved.
* Go `int` values that are provably non-negative in the modelled paths
  (character offsets, lengths, levels) are `ℕ`; externally supplied
  configuration integers are `ℤ`.
* Go `float64` arithmetic on the chunking path only ever computes
  `int(float64(n) * r)`-style truncations of products of integers with the
  configured ratios; it is modelled exactly with `ℚ` and `Int.floor`
  (truncation and floor agree on the non-negative values that occur).
* `math.Log` and `math.Sqrt` inside the embedder are abstracted as
  function parameters `logFn sqrtFn : ℚ → ℚ`; the claims proved about the
  embedder do not depend on their values.
* `time.Now()` (the `CreatedAt` field) is not modelled: it is informational
  metadata with no influence on any other field.
-/

namespace MarkdownRag

/-- Go `text[i]` for in-range `i`; out-of-range accesses (which would panic
in Go and are guarded against in the modelled code) default to NUL. -/
def charAt (t : List Char) (i : ℕ) : Char := t.getD i (Char.ofNat 0)

/-- `unicode.IsSpace` restricted to the code points it recognises in
Latin-1 (the set Go documents for `IsSpace`). -/
def isWhitespaceChar (c : Char) : Bool :=
  c = ' ' || c = '\t' || c = '\n' || c = Char.ofNat 11 || c = Char.ofNat 12 ||
  c = Char.ofNat 13 || c = Char.ofNat 0x85 || c = Char.ofNat 0xA0

/-- `\s` of Go's regexp package: `[\t\n\f\r ]`. -/
def isRegexSpace (c : Char) : Bool :=
  c = ' ' || c = '\t' || c = '\n' || c = Char.ofNat 12 || c = Char.ofNat 13

/-- `strings.TrimSpace`. -/
def trimSpace (l : List Char) : List Char :=
  ((l.dropWhile isWhitespaceChar).reverse.dropWhile isWhitespaceChar).reverse

/-- Go slice expression `l[a:b]` (for `a ≤ b ≤ len l`, the guarded case). -/
def sliceList (l : List Char) (a b : ℕ) : List Char := (l.take b).drop a

/-- HeadingInfo of lister.go. -/
structure HeadingInfo where
  level : ℕ
  text : String
  position : ℕ
deriving DecidableEq

/-- DocumentChunk of lister.go (without the informational `CreatedAt`). -/
structure DocumentChunk where
  id : String
  filePath : String
  fileHash : String
  chunkIndex : ℕ
  content : List Char
  startOffset : ℕ
  endOffset : ℕ
  tokenCount : ℤ
  headingPath : List String
deriving DecidableEq

/-- A throwaway chunk used only as a `headD` default in closed statements. -/
def dummyChunk : DocumentChunk :=
  { id := "", filePath := "", fileHash := "", chunkIndex := 0, content := [],
    startOffset := 0, endOffset := 0, tokenCount := 0, headingPath := [] }

/-- EstimateTokenCount: `int(float64(len(text)) * approxTokensPerChar)`. -/
def estimateTokenCount (text : List Char) (approxTokensPerChar : ℚ) : ℤ :=
  ⌊(text.length : ℚ) * approxTokensPerChar⌋

/-- `strings.Split(content, "\n")`. -/
def splitOnNewline : List Char → List (List Char)
  | [] => [[]]
  | c :: rest =>
    if c = '\n' then [] :: splitOnNewline rest
    else
      match splitOnNewline rest with
      | [] => [[c]]
      | l :: ls => (c :: l) :: ls

/-- The heading regular expression of ExtractHeadings applied to a trimmed
line: `^(#{1,6})\s+(.+)$` matches iff the number of leading hash marks is
between 1 and 6 and is followed by a regexp whitespace character; the
captured text is trimmed. -/
def parseHeading (line : List Char) : Option (ℕ × String) :=
  let t := trimSpace line
  let k := (t.takeWhile (fun c => c = '#')).length
  if 1 ≤ k ∧ k ≤ 6 then
    match t.drop k with
    | [] => none
    | c :: rest =>
      if isRegexSpace c then
        let txt := trimSpace (c :: rest)
        if txt.length = 0 then none else some (k, String.mk txt)
      else none
  else none

/-- The line loop of ExtractHeadings: `position += len(line) + 1`. -/
def extractHeadingsGo : List (List Char) → ℕ → List HeadingInfo
  | [], _ => []
  | line :: rest, pos =>
    match parseHeading line with
    | some lk => ⟨lk.1, lk.2, pos⟩ :: extractHeadingsGo rest (pos + line.length + 1)
    | none => extractHeadingsGo rest (pos + line.length + 1)

/-- ExtractHeadings of lister.go. -/
def extractHeadings (content : List Char) : List HeadingInfo :=
  extractHeadingsGo (splitOnNewline content) 0

/-- GetHeadingContext of lister.go: stop at the first heading at or past
`position`, pop stack entries of level ≥ the incoming level, push, and
return the stack bottom-to-top. The stack is modelled head-as-top. -/
def getHeadingContext (headings : List HeadingInfo) (position : ℕ) : List String :=
  let stack := (headings.takeWhile (fun h => h.position < position)).foldl
    (fun stack h => h :: stack.dropWhile (fun x => h.level ≤ x.level)) []
  stack.reverse.map (fun h => h.text)

/-- The sentence-end test of FindBestSplitPoint at position `p`:
`.`/`!`/`?` followed by space, newline, or end of text. -/
def isSentenceSplitAt (text : List Char) (p : ℕ) : Bool :=
  (charAt text p = '.' || charAt text p = '!' || charAt text p = '?') &&
  (text.length ≤ p + 1 || charAt text (p + 1) = ' ' || charAt text (p + 1) = '\n')

/-- First loop of FindBestSplitPoint: scan positions downward while
`stop < i ∧ 0 < i`, returning `i + 1` at the first sentence end. -/
def sentenceScanGo (text : List Char) (stop : ℕ) : ℕ → Option ℕ
  | 0 => none
  | i + 1 =>
    if stop < i + 1 then
      if isSentenceSplitAt text (i + 1) then some (i + 2)
      else sentenceScanGo text stop i
    else none

/-- Second loop of FindBestSplitPoint: two consecutive newlines, returning
the scan position (the second newline of the pair). -/
def paragraphScanGo (text : List Char) (stop : ℕ) : ℕ → Option ℕ
  | 0 => none
  | i + 1 =>
    if stop < i + 1 then
      if charAt text (i + 1) = '\n' && charAt text i = '\n' then some (i + 1)
      else paragraphScanGo text stop i
    else none

/-- Third loop of FindBestSplitPoint: a single newline, returning `i + 1`. -/
def lineScanGo (text : List Char) (stop : ℕ) : ℕ → Option ℕ
  | 0 => none
  | i + 1 =>
    if stop < i + 1 then
      if charAt text (i + 1) = '\n' then some (i + 2)
      else lineScanGo text stop i
    else none

/-- Fourth loop of FindBestSplitPoint: a space, returning `i + 1`. -/
def wordScanGo (text : List Char) (stop : ℕ) : ℕ → Option ℕ
  | 0 => none
  | i + 1 =>
    if stop < i + 1 then
      if charAt text (i + 1) = ' ' then some (i + 2)
      else wordScanGo text stop i
    else none

/-- FindBestSplitPoint of lister.go. The Go loop bounds `i > maxPos-200`
etc. on signed ints coincide with the truncated subtraction used here
because the loops also require `i > 0`. -/
def findBestSplitPoint (text : List Char) (maxPos : ℕ) : ℕ :=
  if text.length ≤ maxPos then text.length
  else
    match sentenceScanGo text (maxPos - 200) maxPos with
    | some r => r
    | none =>
      match paragraphScanGo text (maxPos - 300) maxPos with
      | some r => r
      | none =>
        match lineScanGo text (maxPos - 100) maxPos with
        | some r => r
        | none =>
          match wordScanGo text (maxPos - 50) maxPos with
          | some r => r
          | none => maxPos

/-- One iteration of the heading scan of the ChunkDocument loop body, on
state `(bestEnd, bestHeadingLevel)`: update on a qualifying heading of
strictly smaller level. -/
def headingStep (minPos idealEnd : ℕ) (acc : ℕ × ℕ) (h : HeadingInfo) : ℕ × ℕ :=
  if minPos < h.position ∧ h.position ≤ idealEnd then
    if h.level < acc.2 then (h.position, h.level) else acc
  else acc

/-- The heading scan of the ChunkDocument loop body: fold over the
extracted headings with state initialised to `(idealEnd, 7)`. -/
def headingScan (headings : List HeadingInfo) (minPos idealEnd : ℕ) : ℕ × ℕ :=
  headings.foldl (headingStep minPos idealEnd) (idealEnd, 7)

/-- Lines 791-808 of the concatenated lister.go: heading scan, then the
`bestEnd == idealEnd` fallback to FindBestSplitPoint. -/
def chooseSplit (content : List Char) (headings : List HeadingInfo)
    (start maxChunkChars : ℕ) : ℕ :=
  let idealEnd := start + maxChunkChars
  let s := headingScan headings (start + maxChunkChars / 2) idealEnd
  if s.1 = idealEnd then findBestSplitPoint content idealEnd else s.1

/-- The clamp to `contentLen` and the forced-progress floor of the
ChunkDocument loop body. -/
def clampForce (content : List Char) (start maxChunkChars b : ℕ) : ℕ :=
  let b2 := if content.length < b then content.length else b
  if b2 ≤ start then start + min maxChunkChars (content.length - start) else b2

/-- The complete `bestEnd` computation of one ChunkDocument iteration. -/
def computeBestEnd (content : List Char) (headings : List HeadingInfo)
    (start maxChunkChars : ℕ) : ℕ :=
  clampForce content start maxChunkChars (chooseSplit content headings start maxChunkChars)

/-- The chunk record built by one emitting ChunkDocument iteration. -/
def mkChunk (filePath fileHash : String) (approx : ℚ) (headings : List HeadingInfo)
    (content : List Char) (start bestEnd chunkIndex : ℕ) : DocumentChunk :=
  { id := fileHash ++ "_" ++ toString chunkIndex
    filePath := filePath
    fileHash := fileHash
    chunkIndex := chunkIndex
    content := sliceList content start bestEnd
    startOffset := start
    endOffset := bestEnd
    tokenCount := estimateTokenCount (sliceList content start bestEnd) approx
    headingPath := getHeadingContext headings start }

/-- `nextStart := bestEnd - overlapChars` with the minimum-progress bump
`maxChunkChars / 10`. A negative Go `bestEnd - overlapChars` is always
bumped, which agrees with the truncated subtraction used here. -/
def nextStartCalc (maxChunkChars overlapChars start bestEnd : ℕ) : ℕ :=
  if bestEnd - overlapChars ≤ start + maxChunkChars / 10 then
    start + maxChunkChars / 10
  else bestEnd - overlapChars

/-- The `for start < contentLen` loop of ChunkDocument. The loop is not
structurally terminating (with `maxChunkChars = 0` the Go original spins
forever), so it takes explicit fuel; `chunkDocument` supplies
`len(content) + 1003` which dominates the iteration count whenever the Go
loop terminates, since every iteration either advances `start` or
increments `chunkIndex` (capped at 1001 emissions). -/
def chunkLoop (filePath fileHash : String) (content : List Char) (approx : ℚ)
    (headings : List HeadingInfo) (maxChunkChars overlapChars : ℕ) :
    ℕ → ℕ → ℕ → List DocumentChunk
  | 0, _, _ => []
  | fuel + 1, start, chunkIndex =>
    if start < content.length then
      if 1000 < chunkIndex then []
      else if (trimSpace (sliceList content start
          (computeBestEnd content headings start maxChunkChars))).length = 0 then
        chunkLoop filePath fileHash content approx headings maxChunkChars overlapChars
          fuel (computeBestEnd content headings start maxChunkChars) chunkIndex
      else if content.length ≤ computeBestEnd content headings start maxChunkChars then
        [mkChunk filePath fileHash approx headings content start
          (computeBestEnd content headings start maxChunkChars) chunkIndex]
      else if content.length ≤ nextStartCalc maxChunkChars overlapChars start
          (computeBestEnd content headings start maxChunkChars) then
        [mkChunk filePath fileHash approx headings content start
          (computeBestEnd content headings start maxChunkChars) chunkIndex]
      else
        mkChunk filePath fileHash approx headings content start
            (computeBestEnd content headings start maxChunkChars) chunkIndex ::
          chunkLoop filePath fileHash content approx headings maxChunkChars overlapChars
            fuel
            (nextStartCalc maxChunkChars overlapChars start
              (computeBestEnd content headings start maxChunkChars))
            (chunkIndex + 1)
    else []

/-- ChunkDocument of lister.go. -/
def chunkDocument (filePath : String) (content : List Char) (fileHash : String)
    (maxTokensPerChunk chunkOverlapPercent : ℤ) (approxTokensPerChar : ℚ) :
    List DocumentChunk :=
  if estimateTokenCount content approxTokensPerChar ≤ maxTokensPerChunk then
    [{ id := fileHash ++ "_0", filePath := filePath, fileHash := fileHash,
       chunkIndex := 0, content := content, startOffset := 0,
       endOffset := content.length,
       tokenCount := estimateTokenCount content approxTokensPerChar,
       headingPath := [] }]
  else
    let maxChunkChars := (⌊(maxTokensPerChunk : ℚ) / approxTokensPerChar⌋).toNat
    let overlapChars := (⌊(maxChunkChars : ℚ) * (chunkOverlapPercent : ℚ) / 100⌋).toNat
    chunkLoop filePath fileHash content approxTokensPerChar (extractHeadings content)
      maxChunkChars overlapChars (content.length + 1003) 0 0

/-! local_embedding.go -/

/-- The stop-word set of isStopWord, enumerated verbatim. -/
def stopWords : List String :=
  ["a", "an", "and", "are", "as", "at", "be", "by", "for", "from",
   "has", "he", "in", "is", "it", "its", "of", "on", "or", "that",
   "the", "to", "was", "were", "will", "with", "this", "but", "they", "have",
   "had", "not", "been", "she", "her", "his", "their", "which", "would", "there",
   "what", "about", "if", "do", "does", "did", "can", "could", "should", "may",
   "might", "shall", "so", "than", "then", "these", "those", "each", "all", "any",
   "both", "few", "more", "most", "other", "some", "such", "no", "nor", "only",
   "own", "same", "too", "very", "just", "because", "how", "when", "where", "who",
   "whom", "why", "also", "into", "through", "during", "before", "after", "above",
   "below", "between", "out", "up", "down", "over", "under", "again", "further",
   "once", "here", "am", "you", "your", "we", "our", "my", "me", "him", "them", "us"]

/-- isStopWord of local_embedding.go. -/
def isStopWord (w : String) : Bool := stopWords.contains w

/-- The flush step of tokenize: keep the accumulated run if it is a
non-stop-word of length > 1. -/
def flushToken (cur : List Char) : List String :=
  if cur.length = 0 then []
  else if isStopWord (String.mk cur) = false ∧ 1 < cur.length then [String.mk cur]
  else []

/-- The splitting loop of tokenize over the lowercased text.
`unicode.IsLetter`/`unicode.IsDigit` are modelled by their ASCII
restrictions `Char.isAlpha`/`Char.isDigit`. -/
def tokenizeGo : List Char → List Char → List String
  | [], cur => flushToken cur
  | c :: rest, cur =>
    if c.isAlpha || c.isDigit then tokenizeGo rest (cur ++ [c])
    else flushToken cur ++ tokenizeGo rest []

/-- tokenize of local_embedding.go (`strings.ToLower` modelled by the
ASCII `Char.toLower`). -/
def tokenize (text : List Char) : List String :=
  tokenizeGo (text.map Char.toLower) []

/-- One byte of FNV-1a 64: xor then multiply by the 64-bit FNV prime. -/
def fnvStep (h b : ℕ) : ℕ := ((h ^^^ b) * 1099511628211) % (2 ^ 64)

/-- hashString of local_embedding.go: FNV-1a 64 over the eight
little-endian seed bytes followed by the UTF-8 bytes of the string. -/
def hashString (s : String) (seed : ℕ) : ℕ :=
  let seedBytes := [seed % 256, seed / 2 ^ 8 % 256, seed / 2 ^ 16 % 256,
    seed / 2 ^ 24 % 256, seed / 2 ^ 32 % 256, seed / 2 ^ 40 % 256,
    seed / 2 ^ 48 % 256, seed / 2 ^ 56 % 256]
  (seedBytes ++ s.toUTF8.toList.map (fun b => b.toNat)).foldl fnvStep 14695981039346656037

/-- addTermToVector of local_embedding.go: primary bucket `h1 mod D` with
sign from `h2`, secondary bucket `h2 mod D` at half weight with sign from
`h3`. -/
def addTermToVector (v : List ℚ) (term : String) (weight : ℚ) : List ℚ :=
  let h1 := hashString term 0
  let h2 := hashString term 1
  let idx1 := h1 % v.length
  let v1 :=
    if h2 % 2 = 0 then v.set idx1 (v.getD idx1 0 + weight)
    else v.set idx1 (v.getD idx1 0 - weight)
  let h3 := hashString term 2
  let idx2 := h2 % v1.length
  if h3 % 2 = 0 then v1.set idx2 (v1.getD idx2 0 + weight * (1 / 2))
  else v1.set idx2 (v1.getD idx2 0 - weight * (1 / 2))

/-- Increment the count of `t` in an association list, first occurrence
first. Go's `tf` map carries the same multiset of (term, count) pairs but
iterates in unspecified order; this model fixes first-occurrence order. -/
def bumpCount : List (String × ℕ) → String → List (String × ℕ)
  | [], t => [(t, 1)]
  | p :: rest, t => if p.1 = t then (p.1, p.2 + 1) :: rest else p :: bumpCount rest t

/-- The term-frequency table of GetLocalEmbedding. -/
def termFreq (tokens : List String) : List (String × ℕ) :=
  tokens.foldl bumpCount []

/-- The contiguous 3-character substrings `term[i : i+3]` of a term. -/
def ngramList (t : String) : List String :=
  (List.range (t.length - 2)).map (fun i => String.mk ((t.data.drop i).take 3))

/-- The adjacent-pair bigram features `token_i ++ "_" ++ token_(i+1)`. -/
def bigrams : List String → List String
  | a :: b :: rest => (a ++ "_" ++ b) :: bigrams (b :: rest)
  | _ => []

/-- l2Normalize of local_embedding.go, with `math.Sqrt` abstracted. -/
def l2Normalize (sqrtFn : ℚ → ℚ) (v : List ℚ) : List ℚ :=
  let norm := sqrtFn ((v.map (fun x => x * x)).sum)
  if norm = 0 then v else v.map (fun x => x / norm)

/-- LocalEmbeddingDimension of local_embedding.go. -/
def LocalEmbeddingDimension : ℕ := 384

/-- GetLocalEmbedding of local_embedding.go, parametrised by the
transcendental float helpers `math.Log` and `math.Sqrt`. The trigram
weight factor 0.3 is modelled as `3/10` and the final lossless-in-length
float32 narrowing is omitted; both are irrelevant to the dimension and
error results proved below. The returned pair models Go's
`([]float32, error)` with the error as an `Option String`. -/
def getLocalEmbedding (logFn sqrtFn : ℚ → ℚ) (text : List Char) :
    List ℚ × Option String :=
  let tokens := tokenize text
  if tokens.length = 0 then (List.replicate LocalEmbeddingDimension 0, none)
  else
    let tf := termFreq tokens
    let v1 := tf.foldl
      (fun v tc =>
        if 3 ≤ tc.1.length then
          (ngramList tc.1).foldl
            (fun vv g => addTermToVector vv ("#" ++ g ++ "#") ((1 + logFn (tc.2 : ℚ)) * (3 / 10)))
            (addTermToVector v tc.1 (1 + logFn (tc.2 : ℚ)))
        else addTermToVector v tc.1 (1 + logFn (tc.2 : ℚ)))
      (List.replicate LocalEmbeddingDimension (0 : ℚ))
    let v2 := (bigrams tokens).foldl (fun v bg => addTermToVector v bg (1 / 2)) v1
    (l2Normalize sqrtFn v2, none)

/-! Helper facts about the embedded definitions. -/

theorem trimSpace_nil_iff (l : List Char) :
    trimSpace l = [] ↔ ∀ c ∈ l, isWhitespaceChar c = true := by
  unfold trimSpace
  rw [List.reverse_eq_nil_iff, List.dropWhile_eq_nil_iff]
  constructor
  · intro h c hc
    have hsplit := List.takeWhile_append_dropWhile (p := isWhitespaceChar) (l := l)
    rw [← hsplit] at hc
    rcases List.mem_append.mp hc with h1 | h2
    · exact List.mem_takeWhile_imp h1
    · exact h _ (List.mem_reverse.mpr h2)
  · intro h c hc
    exact h c ((List.dropWhile_sublist _).subset (List.mem_reverse.mp hc))

theorem exists_nonWhitespace_of_trim_ne_nil {l : List Char}
    (h : ¬ trimSpace l = []) : ∃ ch ∈ l, isWhitespaceChar ch = false := by
  by_contra hc
  push_neg at hc
  apply h
  rw [trimSpace_nil_iff]
  intro c hcl
  have hnc := hc c hcl
  cases hw : isWhitespaceChar c
  · exact absurd hw hnc
  · rfl

theorem charAt_mem_slice {l : List Char} {a b p : ℕ}
    (hap : a ≤ p) (hpb : p < b) (hbl : b ≤ l.length) :
    charAt l p ∈ sliceList l a b := by
  have hpl : p < l.length := lt_of_lt_of_le hpb hbl
  have h1 : (sliceList l a b)[p - a]? = l[p]? := by
    unfold sliceList
    rw [List.getElem?_drop, Nat.add_sub_cancel' hap, List.getElem?_take_of_lt hpb]
  rw [List.getElem?_eq_getElem hpl] at h1
  have h2 : charAt l p = l[p] := by
    unfold charAt
    rw [List.getD_eq_getElem?_getD, List.getElem?_eq_getElem hpl]
    rfl
  rw [h2]
  exact List.getElem?_mem h1

theorem sentenceScanGo_bound (text : List Char) (stop : ℕ) :
    ∀ i r, sentenceScanGo text stop i = some r → 0 < r ∧ r ≤ i + 1 := by
  intro i
  induction i with
  | zero => intro r h; simp [sentenceScanGo] at h
  | succ i ih =>
    intro r h
    rw [sentenceScanGo] at h
    split at h
    · split at h
      · injection h with h; omega
      · have := ih r h; omega
    · simp at h

theorem paragraphScanGo_bound (text : List Char) (stop : ℕ) :
    ∀ i r, paragraphScanGo text stop i = some r → 0 < r ∧ r ≤ i + 1 := by
  intro i
  induction i with
  | zero => intro r h; simp [paragraphScanGo] at h
  | succ i ih =>
    intro r h
    rw [paragraphScanGo] at h
    split at h
    · split at h
      · injection h with h; omega
      · have := ih r h; omega
    · simp at h

theorem lineScanGo_bound (text : List Char) (stop : ℕ) :
    ∀ i r, lineScanGo text stop i = some r → 0 < r ∧ r ≤ i + 1 := by
  intro i
  induction i with
  | zero => intro r h; simp [lineScanGo] at h
  | succ i ih =>
    intro r h
    rw [lineScanGo] at h
    split at h
    · split at h
      · injection h with h; omega
      · have := ih r h; omega
    · simp at h

theorem wordScanGo_bound (text : List Char) (stop : ℕ) :
    ∀ i r, wordScanGo text stop i = some r → 0 < r ∧ r ≤ i + 1 := by
  intro i
  induction i with
  | zero => intro r h; simp [wordScanGo] at h
  | succ i ih =>
    intro r h
    rw [wordScanGo] at h
    split at h
    · split at h
      · injection h with h; omega
      · have := ih r h; omega
    · simp at h

theorem stackFold_mem :
    ∀ (l : List HeadingInfo) (stack0 : List HeadingInfo) (x : HeadingInfo),
      x ∈ l.foldl (fun stack h => h :: stack.dropWhile (fun y => h.level ≤ y.level)) stack0 →
      x ∈ stack0 ∨ x ∈ l := by
  intro l
  induction l with
  | nil => intro s x hx; exact Or.inl hx
  | cons a t ih =>
    intro s x hx
    rw [List.foldl_cons] at hx
    rcases ih _ x hx with h1 | h2
    · rcases List.mem_cons.mp h1 with rfl | h3
      · exact Or.inr (List.mem_cons_self _ _)
      · exact Or.inl ((List.dropWhile_sublist _).subset h3)
    · exact Or.inr (List.mem_cons_of_mem _ h2)

theorem parseHeading_level {line : List Char} {p : ℕ × String}
    (h : parseHeading line = some p) : 1 ≤ p.1 ∧ p.1 ≤ 6 := by
  simp only [parseHeading] at h
  split at h
  case isTrue hcond =>
    split at h
    · exact absurd h (by simp)
    · split at h
      · split at h
        · exact absurd h (by simp)
        · injection h with h
          subst h
          exact hcond
      · exact absurd h (by simp)
  case isFalse hcond => exact absurd h (by simp)

theorem extractHeadingsGo_pos_lb :
    ∀ (lines : List (List Char)) (pos : ℕ) (h : HeadingInfo),
      h ∈ extractHeadingsGo lines pos → pos ≤ h.position := by
  intro lines
  induction lines with
  | nil => intro pos h hm; simp [extractHeadingsGo] at hm
  | cons line rest ih =>
    intro pos h hm
    rw [extractHeadingsGo] at hm
    cases hph : parseHeading line with
    | some lk =>
      rw [hph] at hm
      rcases List.mem_cons.mp hm with rfl | hm2
      · exact le_refl _
      · have := ih _ h hm2
        omega
    | none =>
      rw [hph] at hm
      have := ih _ h hm
      omega

theorem extractHeadingsGo_pairwise :
    ∀ (lines : List (List Char)) (pos : ℕ),
      List.Pairwise (fun a b : HeadingInfo => a.position < b.position)
        (extractHeadingsGo lines pos) := by
  intro lines
  induction lines with
  | nil => intro pos; simp [extractHeadingsGo]
  | cons line rest ih =>
    intro pos
    rw [extractHeadingsGo]
    cases hph : parseHeading line with
    | some lk =>
      rw [List.pairwise_cons]
      refine ⟨?_, ih _⟩
      intro b hb
      have := extractHeadingsGo_pos_lb _ _ b hb
      simp only []
      omega
    | none => exact ih _

theorem extractHeadingsGo_level :
    ∀ (lines : List (List Char)) (pos : ℕ) (h : HeadingInfo),
      h ∈ extractHeadingsGo lines pos → 1 ≤ h.level ∧ h.level ≤ 6 := by
  intro lines
  induction lines with
  | nil => intro pos h hm; simp [extractHeadingsGo] at hm
  | cons line rest ih =>
    intro pos h hm
    rw [extractHeadingsGo] at hm
    cases hph : parseHeading line with
    | some lk =>
      rw [hph] at hm
      rcases List.mem_cons.mp hm with rfl | hm2
      · exact parseHeading_level hph
      · exact ih _ h hm2
    | none =>
      rw [hph] at hm
      exact ih _ h hm

theorem headingScan_noUpdate (minPos idealEnd : ℕ) :
    ∀ (l : List HeadingInfo) (acc : ℕ × ℕ),
      (∀ h ∈ l, minPos < h.position → h.position ≤ idealEnd → acc.2 ≤ h.level) →
      l.foldl (headingStep minPos idealEnd) acc = acc := by
  intro l
  induction l with
  | nil => intro acc _; rfl
  | cons a t ih =>
    intro acc hacc
    rw [List.foldl_cons]
    have hstep : headingStep minPos idealEnd acc a = acc := by
      unfold headingStep
      split
      · next hq =>
        rw [if_neg (Nat.not_lt.mpr (hacc a (List.mem_cons_self _ _) hq.1 hq.2))]
      · rfl
    rw [hstep]
    exact ih acc (fun h hm => hacc h (List.mem_cons_of_mem _ hm))

theorem headingScan_first_min (minPos idealEnd : ℕ) :
    ∀ (l : List HeadingInfo) (acc : ℕ × ℕ) (h : HeadingInfo),
      h ∈ l → minPos < h.position → h.position ≤ idealEnd → h.level < acc.2 →
      (∀ g ∈ l, minPos < g.position → g.position ≤ idealEnd → h.level ≤ g.level) →
      (∀ g ∈ l, minPos < g.position → g.position ≤ idealEnd → g.level = h.level →
        h.position ≤ g.position) →
      List.Pairwise (fun a b : HeadingInfo => a.position < b.position) l →
      l.foldl (headingStep minPos idealEnd) acc = (h.position, h.level) := by
  intro l
  induction l with
  | nil => intro acc h hmem; simp at hmem
  | cons a t ih =>
    intro acc h hmem hq1 hq2 hlt hmin hfirst hpw
    rw [List.foldl_cons]
    have hpwa := List.pairwise_cons.mp hpw
    rcases List.mem_cons.mp hmem with rfl | hmemt
    · have hstep : headingStep minPos idealEnd acc h = (h.position, h.level) := by
        unfold headingStep
        rw [if_pos ⟨hq1, hq2⟩, if_pos hlt]
      rw [hstep]
      apply headingScan_noUpdate
      intro g hg hg1 hg2
      exact hmin g (List.mem_cons_of_mem _ hg) hg1 hg2
    · by_cases hqa : minPos < a.position ∧ a.position ≤ idealEnd
      · have hha : h.level ≤ a.level := hmin a (List.mem_cons_self _ _) hqa.1 hqa.2
        have hlta : h.level < a.level := by
          rcases Nat.lt_or_ge h.level a.level with hx | hx
          · exact hx
          · exfalso
            have heq : a.level = h.level := by omega
            have h1 := hfirst a (List.mem_cons_self _ _) hqa.1 hqa.2 heq
            have h2 := hpwa.1 h hmemt
            omega
        by_cases hupd : a.level < acc.2
        · have hstep : headingStep minPos idealEnd acc a = (a.position, a.level) := by
            unfold headingStep
            rw [if_pos hqa, if_pos hupd]
          rw [hstep]
          exact ih _ h hmemt hq1 hq2 hlta
            (fun g hg => hmin g (List.mem_cons_of_mem _ hg))
            (fun g hg => hfirst g (List.mem_cons_of_mem _ hg)) hpwa.2
        · have hstep : headingStep minPos idealEnd acc a = acc := by
            unfold headingStep
            rw [if_pos hqa, if_neg hupd]
          rw [hstep]
          exact ih acc h hmemt hq1 hq2 hlt
            (fun g hg => hmin g (List.mem_cons_of_mem _ hg))
            (fun g hg => hfirst g (List.mem_cons_of_mem _ hg)) hpwa.2
      · have hstep : headingStep minPos idealEnd acc a = acc := by
          unfold headingStep
          rw [if_neg hqa]
        rw [hstep]
        exact ih acc h hmemt hq1 hq2 hlt
          (fun g hg => hmin g (List.mem_cons_of_mem _ hg))
          (fun g hg => hfirst g (List.mem_cons_of_mem _ hg)) hpwa.2

theorem sentenceScanGo_none (text : List Char) (stop : ℕ) :
    ∀ i, (∀ p, stop < p → p ≤ i → isSentenceSplitAt text p = false) →
      sentenceScanGo text stop i = none := by
  intro i
  induction i with
  | zero => intro _; rfl
  | succ i ih =>
    intro hall
    rw [sentenceScanGo]
    split
    · next hstop =>
      rw [if_neg, ih]
      · intro p h1 h2
        exact hall p h1 (by omega)
      · simp [hall (i + 1) hstop (le_refl _)]
    · rfl

theorem paragraphScanGo_greatest (text : List Char) (stop : ℕ) :
    ∀ i p, stop < p → p ≤ i → charAt text p = '\n' → charAt text (p - 1) = '\n' →
      (∀ q, p < q → q ≤ i → charAt text q = '\n' → charAt text (q - 1) = '\n' → False) →
      paragraphScanGo text stop i = some p := by
  intro i
  induction i with
  | zero => intro p h1 h2 _ _ _; omega
  | succ i ih =>
    intro p h1 h2 hc1 hc2 hmax
    rw [paragraphScanGo]
    rcases Nat.eq_or_lt_of_le h2 with rfl | hplt
    · have hcc : (charAt text (i + 1) = '\n' && charAt text i = '\n') = true := by
        have h2a : i + 1 - 1 = i := by omega
        rw [h2a] at hc2
        simp [hc1, hc2]
      rw [if_pos h1, if_pos hcc]
    · have hp_le : p ≤ i := by omega
      rw [if_pos (by omega : stop < i + 1)]
      rw [if_neg]
      · exact ih p h1 hp_le hc1 hc2 (fun q hq1 hq2 => hmax q hq1 (by omega))
      · intro hcontra
        rw [Bool.and_eq_true] at hcontra
        apply hmax (i + 1) hplt (le_refl _)
        · exact of_decide_eq_true hcontra.1
        · have : i + 1 - 1 = i := by omega
          rw [this]
          exact of_decide_eq_true hcontra.2

theorem le_nextStartCalc (maxCC ovl start bestEnd : ℕ) :
    start + maxCC / 10 ≤ nextStartCalc maxCC ovl start bestEnd := by
  unfold nextStartCalc
  split <;> omega

theorem start_le_computeBestEnd (content : List Char) (headings : List HeadingInfo)
    (start maxCC : ℕ) : start ≤ computeBestEnd content headings start maxCC := by
  unfold computeBestEnd clampForce
  dsimp only
  split <;> split <;> omega

theorem computeBestEnd_le_length (content : List Char) (headings : List HeadingInfo)
    (start maxCC : ℕ) (h : start ≤ content.length) :
    computeBestEnd content headings start maxCC ≤ content.length := by
  unfold computeBestEnd clampForce
  dsimp only
  have hmin := Nat.min_le_right maxCC (content.length - start)
  split <;> split <;> omega

theorem chunkLoop_start_le (filePath fileHash : String) (content : List Char)
    (approx : ℚ) (headings : List HeadingInfo) (maxCC ovl : ℕ) :
    ∀ (fuel start idx : ℕ) (c : DocumentChunk),
      c ∈ chunkLoop filePath fileHash content approx headings maxCC ovl fuel start idx →
      start ≤ c.startOffset := by
  intro fuel
  induction fuel with
  | zero => intro start idx c hc; simp [chunkLoop] at hc
  | succ fuel ih =>
    intro start idx c hc
    rw [chunkLoop] at hc
    by_cases h1 : start < content.length
    · rw [if_pos h1] at hc
      by_cases h2 : 1000 < idx
      · rw [if_pos h2] at hc
        simp at hc
      · rw [if_neg h2] at hc
        by_cases h3 : (trimSpace (sliceList content start
            (computeBestEnd content headings start maxCC))).length = 0
        · rw [if_pos h3] at hc
          have := ih _ _ _ hc
          have h4 := start_le_computeBestEnd content headings start maxCC
          omega
        · rw [if_neg h3] at hc
          by_cases h4 : content.length ≤ computeBestEnd content headings start maxCC
          · rw [if_pos h4] at hc
            rw [List.mem_singleton] at hc
            subst hc
            exact le_refl _
          · rw [if_neg h4] at hc
            by_cases h5 : content.length ≤ nextStartCalc maxCC ovl start
                (computeBestEnd content headings start maxCC)
            · rw [if_pos h5] at hc
              rw [List.mem_singleton] at hc
              subst hc
              exact le_refl _
            · rw [if_neg h5] at hc
              rcases List.mem_cons.mp hc with rfl | hmem
              · exact le_refl _
              · have := ih _ _ _ hmem
                have h6 := le_nextStartCalc maxCC ovl start
                  (computeBestEnd content headings start maxCC)
                omega
    · rw [if_neg h1] at hc
      simp at hc

theorem chunkLoop_content_nonws (filePath fileHash : String) (content : List Char)
    (approx : ℚ) (headings : List HeadingInfo) (maxCC ovl : ℕ) :
    ∀ (fuel start idx : ℕ) (c : DocumentChunk),
      c ∈ chunkLoop filePath fileHash content approx headings maxCC ovl fuel start idx →
      ∃ ch ∈ c.content, isWhitespaceChar ch = false := by
  intro fuel
  induction fuel with
  | zero => intro start idx c hc; simp [chunkLoop] at hc
  | succ fuel ih =>
    intro start idx c hc
    rw [chunkLoop] at hc
    by_cases h1 : start < content.length
    · rw [if_pos h1] at hc
      by_cases h2 : 1000 < idx
      · rw [if_pos h2] at hc
        simp at hc
      · rw [if_neg h2] at hc
        by_cases h3 : (trimSpace (sliceList content start
            (computeBestEnd content headings start maxCC))).length = 0
        · rw [if_pos h3] at hc
          exact ih _ _ _ hc
        · rw [if_neg h3] at hc
          have hnn : ∃ ch ∈ sliceList content start
              (computeBestEnd content headings start maxCC), isWhitespaceChar ch = false := by
            apply exists_nonWhitespace_of_trim_ne_nil
            intro hh
            exact h3 (by rw [hh]; rfl)
          by_cases h4 : content.length ≤ computeBestEnd content headings start maxCC
          · rw [if_pos h4] at hc
            rw [List.mem_singleton] at hc
            subst hc
            exact hnn
          · rw [if_neg h4] at hc
            by_cases h5 : content.length ≤ nextStartCalc maxCC ovl start
                (computeBestEnd content headings start maxCC)
            · rw [if_pos h5] at hc
              rw [List.mem_singleton] at hc
              subst hc
              exact hnn
            · rw [if_neg h5] at hc
              rcases List.mem_cons.mp hc with rfl | hmem
              · exact hnn
              · exact ih _ _ _ hmem
    · rw [if_neg h1] at hc
      simp at hc

theorem chunkLoop_chain (filePath fileHash : String) (content : List Char)
    (approx : ℚ) (headings : List HeadingInfo) (maxCC ovl : ℕ)
    (hmp : 1 ≤ maxCC / 10) :
    ∀ (fuel start idx : ℕ),
      List.Chain' (fun a b : DocumentChunk => a.startOffset < b.startOffset)
        (chunkLoop filePath fileHash content approx headings maxCC ovl fuel start idx) := by
  intro fuel
  induction fuel with
  | zero => intro start idx; simp [chunkLoop]
  | succ fuel ih =>
    intro start idx
    rw [chunkLoop]
    by_cases h1 : start < content.length
    · rw [if_pos h1]
      by_cases h2 : 1000 < idx
      · rw [if_pos h2]
        simp
      · rw [if_neg h2]
        by_cases h3 : (trimSpace (sliceList content start
            (computeBestEnd content headings start maxCC))).length = 0
        · rw [if_pos h3]
          exact ih _ _
        · rw [if_neg h3]
          by_cases h4 : content.length ≤ computeBestEnd content headings start maxCC
          · rw [if_pos h4]
            exact List.chain'_singleton _
          · rw [if_neg h4]
            by_cases h5 : content.length ≤ nextStartCalc maxCC ovl start
                (computeBestEnd content headings start maxCC)
            · rw [if_pos h5]
              exact List.chain'_singleton _
            · rw [if_neg h5]
              rw [List.chain'_cons']
              constructor
              · intro y hy
                have hy2 := List.mem_of_mem_head? hy
                have hy3 := chunkLoop_start_le filePath fileHash content approx headings
                  maxCC ovl fuel _ _ y hy2
                have h6 := le_nextStartCalc maxCC ovl start
                  (computeBestEnd content headings start maxCC)
                show start < y.startOffset
                omega
              · exact ih _ _
    · rw [if_neg h1]
      simp

theorem chunkLoop_cover (filePath fileHash : String) (content : List Char)
    (approx : ℚ) (headings : List HeadingInfo) (maxCC ovl : ℕ) :
    ∀ (fuel start idx : ℕ),
      idx + (chunkLoop filePath fileHash content approx headings maxCC ovl
        fuel start idx).length ≤ 1000 →
      List.Chain' (fun a b : DocumentChunk => b.startOffset ≤ a.endOffset)
        (chunkLoop filePath fileHash content approx headings maxCC ovl fuel start idx) →
      (chunkLoop filePath fileHash content approx headings maxCC ovl
          fuel start idx).getLast?.map (fun c => c.endOffset) = some content.length →
      ∀ p, start ≤ p → p < content.length → isWhitespaceChar (charAt content p) = false →
        ∃ c ∈ chunkLoop filePath fileHash content approx headings maxCC ovl fuel start idx,
          c.startOffset ≤ p ∧ p < c.endOffset := by
  intro fuel
  induction fuel with
  | zero =>
    intro start idx _ _ hlast p _ _ _
    simp [chunkLoop] at hlast
  | succ fuel ih =>
    intro start idx hidx hchain hlast p hsp hpl hws
    rw [chunkLoop] at hidx hchain hlast ⊢
    by_cases h1 : start < content.length
    · rw [if_pos h1] at hidx hchain hlast ⊢
      by_cases h2 : 1000 < idx
      · rw [if_pos h2] at hlast
        simp at hlast
      · rw [if_neg h2] at hidx hchain hlast ⊢
        by_cases h3 : (trimSpace (sliceList content start
            (computeBestEnd content headings start maxCC))).length = 0
        · rw [if_pos h3] at hidx hchain hlast ⊢
          by_cases hp : p < computeBestEnd content headings start maxCC
          · exfalso
            have hbl : computeBestEnd content headings start maxCC ≤ content.length :=
              computeBestEnd_le_length content headings start maxCC (le_of_lt h1)
            have hmem := charAt_mem_slice hsp hp hbl
            have hall := (trimSpace_nil_iff _).mp (List.length_eq_zero.mp h3)
            have hwtrue := hall _ hmem
            rw [hwtrue] at hws
            cases hws
          · exact ih _ _ hidx hchain hlast p (by omega) hpl hws
        · rw [if_neg h3] at hidx hchain hlast ⊢
          by_cases h4 : content.length ≤ computeBestEnd content headings start maxCC
          · rw [if_pos h4] at hidx hchain hlast ⊢
            refine ⟨_, List.mem_singleton_self _, hsp, ?_⟩
            show p < computeBestEnd content headings start maxCC
            omega
          · rw [if_neg h4] at hidx hchain hlast ⊢
            by_cases h5 : content.length ≤ nextStartCalc maxCC ovl start
                (computeBestEnd content headings start maxCC)
            · rw [if_pos h5] at hlast
              exfalso
              simp [mkChunk] at hlast
              omega
            · rw [if_neg h5] at hidx hchain hlast ⊢
              by_cases hp : p < computeBestEnd content headings start maxCC
              · exact ⟨_, List.mem_cons_self _ _, hsp, hp⟩
              · cases hL : chunkLoop filePath fileHash content approx headings maxCC ovl fuel
                    (nextStartCalc maxCC ovl start (computeBestEnd content headings start maxCC))
                    (idx + 1) with
                | nil =>
                  exfalso
                  rw [hL] at hlast
                  simp [mkChunk] at hlast
                  omega
                | cons r0 rtail =>
                  rw [hL] at hidx hchain hlast
                  have hr0 : r0.startOffset ≤ computeBestEnd content headings start maxCC :=
                    (List.chain'_cons.mp hchain).1
                  have hnsle : nextStartCalc maxCC ovl start
                      (computeBestEnd content headings start maxCC) ≤ r0.startOffset := by
                    apply chunkLoop_start_le filePath fileHash content approx headings
                      maxCC ovl fuel _ _ r0
                    rw [hL]
                    exact List.mem_cons_self _ _
                  have hidx2 : (idx + 1) + (chunkLoop filePath fileHash content approx headings
                      maxCC ovl fuel (nextStartCalc maxCC ovl start
                        (computeBestEnd content headings start maxCC)) (idx + 1)).length ≤ 1000 := by
                    rw [hL]
                    simp only [List.length_cons] at hidx ⊢
                    omega
                  have hchain2 : List.Chain' (fun a b : DocumentChunk => b.startOffset ≤ a.endOffset)
                      (chunkLoop filePath fileHash content approx headings maxCC ovl fuel
                        (nextStartCalc maxCC ovl start
                          (computeBestEnd content headings start maxCC)) (idx + 1)) := by
                    rw [hL]
                    exact (List.chain'_cons.mp hchain).2
                  have hlast2 : (chunkLoop filePath fileHash content approx headings maxCC ovl fuel
                      (nextStartCalc maxCC ovl start
                        (computeBestEnd content headings start maxCC))
                      (idx + 1)).getLast?.map (fun c => c.endOffset) = some content.length := by
                    rw [hL]
                    rw [List.getLast?_cons_cons] at hlast
                    exact hlast
                  rcases ih _ _ hidx2 hchain2 hlast2 p (by omega) hpl hws with ⟨c, hcmem, hcov⟩
                  rw [hL] at hcmem
                  exact ⟨c, List.mem_cons_of_mem _ hcmem, hcov⟩
    · rw [if_neg h1] at hlast
      simp at hlast

theorem addTermToVector_length (v : List ℚ) (t : String) (w : ℚ) :
    (addTermToVector v t w).length = v.length := by
  unfold addTermToVector
  dsimp only
  split <;> split <;> simp

theorem foldl_length_invariant {α : Type _} (f : List ℚ → α → List ℚ)
    (hf : ∀ (v : List ℚ) (a : α), (f v a).length = v.length) :
    ∀ (l : List α) (v : List ℚ), (l.foldl f v).length = v.length := by
  intro l
  induction l with
  | nil => intro v; rfl
  | cons a t ih => intro v; rw [List.foldl_cons, ih, hf]

theorem l2Normalize_length (sqrtFn : ℚ → ℚ) (v : List ℚ) :
    (l2Normalize sqrtFn v).length = v.length := by
  unfold l2Normalize
  dsimp only
  split
  · rfl
  · simp

theorem headD_mem {α : Type _} (l : List α) (d : α) (h : l ≠ []) : l.headD d ∈ l := by
  cases l with
  | nil => exact absurd rfl h
  | cons a t => exact List.mem_cons_self _ _

theorem chain'_offsets_of_map (l : List DocumentChunk) (ps : List (ℕ × ℕ))
    (h : l.map (fun c => (c.startOffset, c.endOffset)) = ps)
    (hps : List.Chain' (fun a b : ℕ × ℕ => b.1 ≤ a.2) ps) :
    List.Chain' (fun a b : DocumentChunk => b.startOffset ≤ a.endOffset) l := by
  subst h
  exact (List.chain'_map _).mp hps

/-- Evaluation helper: on the chunking path, ChunkDocument is the loop with
the two derived character counts. -/
theorem chunkDocument_eq_loop (filePath : String) (content : List Char) (fileHash : String)
    (maxTok ovlPct : ℤ) (approx : ℚ) (mc oc : ℕ)
    (hbig : maxTok < estimateTokenCount content approx)
    (hmc : (⌊(maxTok : ℚ) / approx⌋).toNat = mc)
    (hoc : (⌊(mc : ℚ) * (ovlPct : ℚ) / 100⌋).toNat = oc) :
    chunkDocument filePath content fileHash maxTok ovlPct approx =
      chunkLoop filePath fileHash content approx (extractHeadings content) mc oc
        (content.length + 1003) 0 0 := by
  unfold chunkDocument
  rw [if_neg (not_le.mpr hbig)]
  dsimp only
  rw [hmc, hoc]

/-! Claim theorems. -/

/-- C2 counterexample: the claim that FindBestSplitPoint returns at most
`pos` whenever `pos < len(text)` is false: on the text "a. b" with
`pos = 1` the sentence rule splits immediately after the period at
position 1 and returns 2 > 1. -/
theorem findBestSplitPoint_exceeds_pos :
    findBestSplitPoint "a. b".data 1 = 2 ∧ (1 : ℕ) < "a. b".data.length := by
  decide

/-- C2 (amended): FindBestSplitPoint(text, pos) returns exactly len(text)
whenever pos ≥ len(text); whenever 0 < pos < len(text) it returns an
offset strictly greater than 0 and at most pos + 1 (the sentence, line
and word rules split immediately after a boundary character, which at
position pos yields pos + 1); for pos = 0 < len(text) it returns 0. -/
theorem findBestSplitPoint_bounds (text : List Char) (maxPos : ℕ) :
    (text.length ≤ maxPos → findBestSplitPoint text maxPos = text.length) ∧
    (0 < maxPos → maxPos < text.length →
      0 < findBestSplitPoint text maxPos ∧ findBestSplitPoint text maxPos ≤ maxPos + 1) ∧
    (0 < text.length → findBestSplitPoint text 0 = 0) := by
  refine ⟨?_, ?_, ?_⟩
  · intro h
    unfold findBestSplitPoint
    rw [if_pos h]
  · intro h0 hlen
    unfold findBestSplitPoint
    rw [if_neg (not_le.mpr hlen)]
    cases hs : sentenceScanGo text (maxPos - 200) maxPos with
    | some r =>
      dsimp only
      have := sentenceScanGo_bound text _ maxPos r hs
      omega
    | none =>
      cases hpar : paragraphScanGo text (maxPos - 300) maxPos with
      | some r =>
        dsimp only
        have := paragraphScanGo_bound text _ maxPos r hpar
        omega
      | none =>
        cases hline : lineScanGo text (maxPos - 100) maxPos with
        | some r =>
          dsimp only
          have := lineScanGo_bound text _ maxPos r hline
          omega
        | none =>
          cases hword : wordScanGo text (maxPos - 50) maxPos with
          | some r =>
            dsimp only
            have := wordScanGo_bound text _ maxPos r hword
            omega
          | none =>
            dsimp only
            omega
  · intro hpos
    unfold findBestSplitPoint
    rw [if_neg (by omega)]
    rfl

/-- C2 witness: the amended bounds hold at the concrete call
FindBestSplitPoint("ab", 1). -/
theorem findBestSplitPoint_bounds_witness :
    0 < findBestSplitPoint "ab".data 1 ∧ findBestSplitPoint "ab".data 1 ≤ 2 :=
  (findBestSplitPoint_bounds "ab".data 1).2.1 (by decide) (by decide)

/-- C4: whenever the token estimate is at most maxTokensPerChunk,
ChunkDocument returns exactly one chunk whose content is the entire input,
with chunkIndex 0, startOffset 0 and endOffset len(content). -/
theorem smallDocument_single_chunk (filePath : String) (content : List Char)
    (fileHash : String) (maxTokensPerChunk chunkOverlapPercent : ℤ) (approx : ℚ)
    (h : estimateTokenCount content approx ≤ maxTokensPerChunk) :
    chunkDocument filePath content fileHash maxTokensPerChunk chunkOverlapPercent approx =
      [{ id := fileHash ++ "_0", filePath := filePath, fileHash := fileHash,
         chunkIndex := 0, content := content, startOffset := 0,
         endOffset := content.length,
         tokenCount := estimateTokenCount content approx, headingPath := [] }] := by
  unfold chunkDocument
  rw [if_pos h]

/-- C4 witness: the single-chunk equation at the concrete document "hi"
with maxTokensPerChunk 4000 and charsPerToken ratio 0.25. -/
theorem smallDocument_single_chunk_witness :
    chunkDocument "p" "hi".data "h" 4000 15 (1 / 4) =
      [{ id := "h" ++ "_0", filePath := "p", fileHash := "h",
         chunkIndex := 0, content := "hi".data, startOffset := 0,
         endOffset := "hi".data.length,
         tokenCount := estimateTokenCount "hi".data (1 / 4), headingPath := [] }] :=
  smallDocument_single_chunk "p" "hi".data "h" 4000 15 (1 / 4) (by
    unfold estimateTokenCount
    rw [(by decide : "hi".data.length = 2)]
    norm_num)

/-- C7: GetHeadingContext reproduces the three specified example contexts
for headings (1,"Title",0), (2,"A",20), (3,"A1",50), (2,"B",100), and in
general every returned context entry is the text of a heading strictly
before the queried position (a heading exactly at the position is
excluded). -/
theorem getHeadingContext_spec :
    getHeadingContext [⟨1, "Title", 0⟩, ⟨2, "A", 20⟩, ⟨3, "A1", 50⟩, ⟨2, "B", 100⟩] 30 =
        ["Title", "A"] ∧
    getHeadingContext [⟨1, "Title", 0⟩, ⟨2, "A", 20⟩, ⟨3, "A1", 50⟩, ⟨2, "B", 100⟩] 60 =
        ["Title", "A", "A1"] ∧
    getHeadingContext [⟨1, "Title", 0⟩, ⟨2, "A", 20⟩, ⟨3, "A1", 50⟩, ⟨2, "B", 100⟩] 110 =
        ["Title", "B"] ∧
    ∀ (headings : List HeadingInfo) (position : ℕ) (s : String),
      s ∈ getHeadingContext headings position →
      ∃ h ∈ headings, h.text = s ∧ h.position < position := by
  refine ⟨by decide, by decide, by decide, ?_⟩
  intro headings position s hs
  simp only [getHeadingContext] at hs
  rw [List.mem_map] at hs
  rcases hs with ⟨h, hmem, htext⟩
  rw [List.mem_reverse] at hmem
  rcases stackFold_mem _ _ _ hmem with hfalse | hmem2
  · simp at hfalse
  · refine ⟨h, ?_, htext, ?_⟩
    · exact (List.takeWhile_sublist _).subset hmem2
    · have hp := List.mem_takeWhile_imp hmem2
      simp only [decide_eq_true_eq] at hp
      exact hp

/-- C7 witness: the general exclusion property applied to the example
heading list at position 30 and entry "Title". -/
theorem getHeadingContext_spec_witness :
    ∃ h ∈ [(⟨1, "Title", 0⟩ : HeadingInfo), ⟨2, "A", 20⟩, ⟨3, "A1", 50⟩, ⟨2, "B", 100⟩],
      h.text = "Title" ∧ h.position < 30 :=
  getHeadingContext_spec.2.2.2 _ 30 "Title" (by decide)

/-- C3 counterexample: on the single-chunk path the whitespace check is
absent: the empty document has token estimate 0 ≤ 10, and ChunkDocument
returns one chunk whose content is empty, so not every returned chunk
contains a non-whitespace character. -/
theorem singleChunk_whitespace_counterexample :
    (chunkDocument "p" [] "h" 10 0 (1 / 4)).length = 1 ∧
    ((chunkDocument "p" [] "h" 10 0 (1 / 4)).headD dummyChunk).content = [] := by
  have hsmall : estimateTokenCount ([] : List Char) (1 / 4) ≤ 10 := by
    unfold estimateTokenCount
    norm_num
  unfold chunkDocument
  rw [if_pos hsmall]
  exact ⟨rfl, rfl⟩

/-- C3 (amended): on the chunking path (token estimate strictly greater
than maxTokensPerChunk) every returned chunk's content contains at least
one non-whitespace character; the single-chunk path returns the whole
document unchecked, so an empty or whitespace-only small document yields
one empty/whitespace-only chunk. -/
theorem chunkingPath_content_nonWhitespace (filePath : String) (content : List Char)
    (fileHash : String) (maxTok ovlPct : ℤ) (approx : ℚ)
    (hbig : maxTok < estimateTokenCount content approx) :
    ∀ c ∈ chunkDocument filePath content fileHash maxTok ovlPct approx,
      ∃ ch ∈ c.content, isWhitespaceChar ch = false := by
  intro c hc
  have hne : ¬ estimateTokenCount content approx ≤ maxTok := not_le.mpr hbig
  unfold chunkDocument at hc
  rw [if_neg hne] at hc
  exact chunkLoop_content_nonws filePath fileHash content approx (extractHeadings content)
    _ _ _ _ _ c hc

/-- C3 witness: on the 20-character all-letter document with
maxTokensPerChunk 10 and ratio 1, the first returned chunk contains a
non-whitespace character. -/
theorem chunkingPath_content_nonWhitespace_witness :
    ∃ ch ∈ ((chunkDocument "f" (List.replicate 20 'a') "h" 10 0 1).headD dummyChunk).content,
      isWhitespaceChar ch = false := by
  have hbig : (10 : ℤ) < estimateTokenCount (List.replicate 20 'a') 1 := by
    unfold estimateTokenCount
    rw [(by decide : (List.replicate 20 'a').length = 20)]
    norm_num
  have heq := chunkDocument_eq_loop "f" (List.replicate 20 'a') "h" 10 0 1 10 0 hbig
    (by norm_num; all_goals decide) (by norm_num; all_goals decide)
  apply chunkingPath_content_nonWhitespace "f" (List.replicate 20 'a') "h" 10 0 1 hbig
  rw [heq]
  apply headD_mem
  intro hnil
  have hlen2 : (chunkLoop "f" "h" (List.replicate 20 'a') 1
      (extractHeadings (List.replicate 20 'a')) 10 0
      ((List.replicate 20 'a').length + 1003) 0 0).length = 2 := by decide
  rw [hnil] at hlen2
  simp at hlen2

/-- C5 counterexample: with maxTokensPerChunk 1, overlap 100 percent and
ratio 0.25 the derived maxChunkChars is 4 (positive), minimum progress
4/10 = 0, and on a 20-letter document the loop re-emits the same window:
the first two chunks both have startOffset 0, so consecutive startOffsets
are not strictly increasing. -/
theorem startOffsets_not_increasing_counterexample :
    (0 : ℕ) < (⌊(1 : ℚ) / (1 / 4 : ℚ)⌋).toNat ∧
    ((chunkDocument "f" (List.replicate 20 'a') "h" 1 100 (1 / 4)).take 2).map
        (fun c => c.startOffset) = [0, 0] := by
  have h4 : (⌊(1 : ℚ) / (1 / 4 : ℚ)⌋).toNat = 4 := by
    norm_num
    all_goals decide
  have hbig : (1 : ℤ) < estimateTokenCount (List.replicate 20 'a') (1 / 4) := by
    unfold estimateTokenCount
    rw [(by decide : (List.replicate 20 'a').length = 20)]
    norm_num
  refine ⟨by omega, ?_⟩
  rw [chunkDocument_eq_loop "f" (List.replicate 20 'a') "h" 1 100 (1 / 4) 4 4 hbig
    (by norm_num; all_goals decide) (by norm_num; all_goals decide)]
  decide

/-- C5 (amended): whenever the derived maxChunkChars is at least 10 (so
that the minimum-progress floor maxChunkChars/10 is at least one
character), the startOffset values of consecutive chunks returned by
ChunkDocument are strictly increasing. -/
theorem startOffsets_strictly_increasing (filePath : String) (content : List Char)
    (fileHash : String) (maxTok ovlPct : ℤ) (approx : ℚ)
    (h10 : 10 ≤ (⌊(maxTok : ℚ) / approx⌋).toNat) :
    List.Chain' (fun a b : DocumentChunk => a.startOffset < b.startOffset)
      (chunkDocument filePath content fileHash maxTok ovlPct approx) := by
  unfold chunkDocument
  split
  · exact List.chain'_singleton _
  · exact chunkLoop_chain filePath fileHash content approx (extractHeadings content)
      _ _ (by omega) _ 0 0

/-- C5 witness: strictly increasing startOffsets on the 20-letter document
with maxTokensPerChunk 10 and ratio 1 (maxChunkChars = 10). -/
theorem startOffsets_strictly_increasing_witness :
    List.Chain' (fun a b : DocumentChunk => a.startOffset < b.startOffset)
      (chunkDocument "f2" (List.replicate 20 'a') "h" 10 0 1) :=
  startOffsets_strictly_increasing "f2" (List.replicate 20 'a') "h" 10 0 1
    (by norm_num; all_goals decide)

/-- C1 counterexample: the document of ten letters followed by ten spaces
has token estimate 20 > 10, but ChunkDocument returns a single chunk
[0, 11): the whitespace-only remainder is skipped, the union of chunk
ranges does not cover positions 11..19, and the last chunk's endOffset is
11, not len(content) = 20. -/
theorem coverage_gap_counterexample :
    (10 : ℤ) < estimateTokenCount (List.replicate 10 'a' ++ List.replicate 10 ' ') 1 ∧
    (chunkDocument "f" (List.replicate 10 'a' ++ List.replicate 10 ' ') "h" 10 0 1).map
        (fun c => (c.startOffset, c.endOffset)) = [(0, 11)] ∧
    (List.replicate 10 'a' ++ List.replicate 10 ' ').length = 20 := by
  have hbig : (10 : ℤ) < estimateTokenCount (List.replicate 10 'a' ++ List.replicate 10 ' ') 1 := by
    unfold estimateTokenCount
    rw [(by decide : (List.replicate 10 'a' ++ List.replicate 10 ' ').length = 20)]
    norm_num
  refine ⟨hbig, ?_, by decide⟩
  rw [chunkDocument_eq_loop "f" (List.replicate 10 'a' ++ List.replicate 10 ' ') "h" 10 0 1
    10 0 hbig (by norm_num; all_goals decide) (by norm_num; all_goals decide)]
  decide

/-- C1 (amended): for a document whose token estimate exceeds
maxTokensPerChunk, if ChunkDocument returns at most 1000 chunks, each
consecutive pair of chunks overlaps or abuts
(startOffset of the next ≤ endOffset of the previous), and the last
chunk's endOffset equals len(content), then every non-whitespace position
of the source is covered by some chunk's half-open range. The
unconditional claim fails: whitespace-only slices are skipped and never
covered, so gaps at whitespace (and a short final endOffset) are
possible. -/
theorem chunkDocument_covers_nonWhitespace (filePath : String) (content : List Char)
    (fileHash : String) (maxTok ovlPct : ℤ) (approx : ℚ)
    (hbig : maxTok < estimateTokenCount content approx)
    (hlen : (chunkDocument filePath content fileHash maxTok ovlPct approx).length ≤ 1000)
    (hchain : List.Chain' (fun a b : DocumentChunk => b.startOffset ≤ a.endOffset)
      (chunkDocument filePath content fileHash maxTok ovlPct approx))
    (hlast : (chunkDocument filePath content fileHash maxTok ovlPct approx).getLast?.map
      (fun c => c.endOffset) = some content.length) :
    ∀ p, p < content.length → isWhitespaceChar (charAt content p) = false →
      ∃ c ∈ chunkDocument filePath content fileHash maxTok ovlPct approx,
        c.startOffset ≤ p ∧ p < c.endOffset := by
  intro p hpl hws
  have hne : ¬ estimateTokenCount content approx ≤ maxTok := not_le.mpr hbig
  unfold chunkDocument at hlen hchain hlast ⊢
  rw [if_neg hne] at hlen hchain hlast ⊢
  dsimp only at hlen hchain hlast ⊢
  exact chunkLoop_cover filePath fileHash content approx (extractHeadings content)
    _ _ _ 0 0 (by omega) hchain hlast p (Nat.zero_le p) hpl hws

/-- C1 witness: on the 20-letter document with maxTokensPerChunk 10 and
ratio 1 the chunks are [0,10) and [10,20); the side conditions hold and
position 5 is covered. -/
theorem chunkDocument_covers_nonWhitespace_witness :
    ∃ c ∈ chunkDocument "f" (List.replicate 20 'a') "h" 10 0 1,
      c.startOffset ≤ 5 ∧ 5 < c.endOffset := by
  have hbig : (10 : ℤ) < estimateTokenCount (List.replicate 20 'a') 1 := by
    unfold estimateTokenCount
    rw [(by decide : (List.replicate 20 'a').length = 20)]
    norm_num
  have heq := chunkDocument_eq_loop "f" (List.replicate 20 'a') "h" 10 0 1 10 0 hbig
    (by norm_num; all_goals decide) (by norm_num; all_goals decide)
  refine chunkDocument_covers_nonWhitespace "f" (List.replicate 20 'a') "h" 10 0 1 hbig
    ?_ ?_ ?_ 5 (by decide) (by decide)
  · rw [heq]; decide
  · rw [heq]
    refine chain'_offsets_of_map _ [(0, 10), (10, 20)] (by decide) ?_
    simp [List.chain'_cons]
  · rw [heq]; decide

/-- C6 counterexample: in "aaaa. aaa\n# Hd\nbbbbbb" the single extracted
heading is level 1 at position 10; with maxChunkChars 10 it qualifies
(5 < 10 ≤ 10), yet the emitted chunk ends at 5 (the sentence split point),
not at the heading position 10, because a heading exactly at
start + maxChunkChars is indistinguishable from no heading at all. -/
theorem headingAtIdealEnd_counterexample :
    (extractHeadings "aaaa. aaa\n# Hd\nbbbbbb".data).map
        (fun h => (h.level, h.text, h.position)) = [(1, "Hd", 10)] ∧
    0 + 10 / 2 < 10 ∧ 10 ≤ 0 + 10 ∧
    ((chunkDocument "f" "aaaa. aaa\n# Hd\nbbbbbb".data "h" 10 0 1).headD
        dummyChunk).endOffset = 5 ∧
    (5 : ℕ) ≠ 10 := by
  refine ⟨by decide, by decide, by decide, ?_, by decide⟩
  have hbig : (10 : ℤ) < estimateTokenCount "aaaa. aaa\n# Hd\nbbbbbb".data 1 := by
    unfold estimateTokenCount
    rw [(by decide : "aaaa. aaa\n# Hd\nbbbbbb".data.length = 21)]
    norm_num
  rw [chunkDocument_eq_loop "f" "aaaa. aaa\n# Hd\nbbbbbb".data "h" 10 0 1 10 0 hbig
    (by norm_num; all_goals decide) (by norm_num; all_goals decide)]
  decide

/-- C6 (amended): on the chunking path, when among the extracted headings
with position strictly greater than start + maxChunkChars/2 and at most
start + maxChunkChars there is one of minimal level that is earliest
(smallest position) among those of that level, the chunk end before
clamping is set to its position, provided that position differs from
start + maxChunkChars; when no heading qualifies — and also when the
selected heading sits exactly at start + maxChunkChars — the end is
chosen by FindBestSplitPoint at start + maxChunkChars. -/
theorem headingPreferredCut (content : List Char) (start maxCC : ℕ) :
    (∀ h : HeadingInfo, h ∈ extractHeadings content →
      start + maxCC / 2 < h.position → h.position ≤ start + maxCC →
      (∀ g ∈ extractHeadings content, start + maxCC / 2 < g.position →
        g.position ≤ start + maxCC → h.level ≤ g.level) →
      (∀ g ∈ extractHeadings content, start + maxCC / 2 < g.position →
        g.position ≤ start + maxCC → g.level = h.level → h.position ≤ g.position) →
      h.position ≠ start + maxCC →
      chooseSplit content (extractHeadings content) start maxCC = h.position) ∧
    ((∀ h ∈ extractHeadings content, start + maxCC / 2 < h.position →
        h.position ≤ start + maxCC → False) →
      chooseSplit content (extractHeadings content) start maxCC =
        findBestSplitPoint content (start + maxCC)) := by
  constructor
  · intro h hmem hq1 hq2 hmin hfirst hne
    have hlev := extractHeadingsGo_level _ _ h hmem
    have hscan : headingScan (extractHeadings content) (start + maxCC / 2) (start + maxCC) =
        (h.position, h.level) := by
      unfold headingScan
      exact headingScan_first_min _ _ _ _ h hmem hq1 hq2 (show h.level < 7 by omega)
        hmin hfirst (extractHeadingsGo_pairwise _ _)
    unfold chooseSplit
    dsimp only
    rw [hscan]
    exact if_neg hne
  · intro hnone
    have hscan : headingScan (extractHeadings content) (start + maxCC / 2) (start + maxCC) =
        (start + maxCC, 7) := by
      unfold headingScan
      apply headingScan_noUpdate
      intro g hg hg1 hg2
      exact (hnone g hg hg1 hg2).elim
    unfold chooseSplit
    dsimp only
    rw [hscan]
    exact if_pos rfl

/-- C6 witness: in "aaaa. aaa\n# Hd\nbbbbbbbb" with start 0 and
maxChunkChars 12, the level-1 heading at position 10 qualifies
(6 < 10 ≤ 12), is minimal and earliest, and sits strictly before
start + maxChunkChars, so the chosen end is 10. -/
theorem headingPreferredCut_witness :
    chooseSplit "aaaa. aaa\n# Hd\nbbbbbbbb".data
      (extractHeadings "aaaa. aaa\n# Hd\nbbbbbbbb".data) 0 12 = 10 :=
  (headingPreferredCut "aaaa. aaa\n# Hd\nbbbbbbbb".data 0 12).1 ⟨1, "Hd", 10⟩
    (by decide) (by decide) (by decide) (by decide) (by decide) (by decide)

/-- C8 counterexample: in "aaaa\n\nbb" with target position 7 there is no
sentence end anywhere (checked over all positions up to 7), the newline
pair sits at positions (4, 5), and FindBestSplitPoint returns 5 — the
position of the second newline of the pair, not the first (4). -/
theorem paragraphBreak_first_newline_counterexample :
    charAt "aaaa\n\nbb".data 4 = '\n' ∧ charAt "aaaa\n\nbb".data 5 = '\n' ∧
    ((List.range 8).all (fun q => !(isSentenceSplitAt "aaaa\n\nbb".data q))) = true ∧
    findBestSplitPoint "aaaa\n\nbb".data 7 = 5 ∧ (5 : ℕ) ≠ 4 := by
  decide

/-- C8 (amended): when no qualifying sentence end exists in the
200-character window and a pair of consecutive newlines exists in the
300-character window, FindBestSplitPoint returns the largest position p in
the window such that positions p-1 and p both hold newlines — i.e. the
position of the second newline of the rearmost pair, not the first. -/
theorem paragraphBreak_split (text : List Char) (maxPos p : ℕ)
    (hlen : maxPos < text.length)
    (hsent : ∀ q, maxPos - 200 < q → q ≤ maxPos → isSentenceSplitAt text q = false)
    (hwin : maxPos - 300 < p) (hple : p ≤ maxPos)
    (hc1 : charAt text p = '\n') (hc2 : charAt text (p - 1) = '\n')
    (hmax : ∀ q, p < q → q ≤ maxPos → charAt text q = '\n' →
      charAt text (q - 1) = '\n' → False) :
    findBestSplitPoint text maxPos = p := by
  unfold findBestSplitPoint
  rw [if_neg (not_le.mpr hlen)]
  rw [sentenceScanGo_none text _ maxPos hsent]
  rw [paragraphScanGo_greatest text _ maxPos p hwin hple hc1 hc2 hmax]

/-- C8 witness: on "aaaa\n\nbb" with target position 7 the amended rule
gives split point 5. -/
theorem paragraphBreak_split_witness :
    findBestSplitPoint "aaaa\n\nbb".data 7 = 5 :=
  paragraphBreak_split "aaaa\n\nbb".data 7 5 (by decide)
    (by intro q h1 h2; interval_cases q <;> decide)
    (by decide) (by decide) (by decide) (by decide)
    (by intro q h1 h2 hq1 hq2; interval_cases q <;> revert hq1 hq2 <;> decide)

/-- C10: for every input text (the empty string and zero-token strings
included) and any values of the abstracted float helpers, GetLocalEmbedding
returns a vector of exactly LocalEmbeddingDimension = 384 elements and a
nil error; the local-mode embedding entry point never fails. -/
theorem getLocalEmbedding_dim_and_error (logFn sqrtFn : ℚ → ℚ) (text : List Char) :
    (getLocalEmbedding logFn sqrtFn text).1.length = LocalEmbeddingDimension ∧
    (getLocalEmbedding logFn sqrtFn text).2 = none := by
  unfold getLocalEmbedding
  by_cases hz : (tokenize text).length = 0
  · rw [if_pos hz]
    exact ⟨List.length_replicate _ _, rfl⟩
  · rw [if_neg hz]
    dsimp only
    refine ⟨?_, rfl⟩
    rw [l2Normalize_length]
    rw [foldl_length_invariant (fun v bg => addTermToVector v bg (1 / 2))
      (fun v a => addTermToVector_length v a _)]
    rw [foldl_length_invariant _ ?hbody]
    case hbody =>
      intro v tc
      dsimp only
      split
      · rw [foldl_length_invariant _ (fun vv g => addTermToVector_length vv _ _)]
        exact addTermToVector_length _ _ _
      · exact addTermToVector_length _ _ _
    exact List.length_replicate _ _

end MarkdownRag

